import Mathlib

/-!
Formal model of the backup pipeline of `mysqlCloudinaryBackups` (`src/backup.ts`).

The canonical pipeline (`backup` in `src/backup.ts`) dumps a MySQL database,
compresses the dump, splits the compressed artifact into chunks of at most
`CHUNK_SIZE` bytes when it exceeds that threshold, builds a checksum manifest,
uploads every part and then the manifest to a run-scoped Cloudinary folder with
bounded retries, rolls the uploads back on a permanent failure, and always
removes its temporary workspace.

File contents are modelled as `List Nat` (one element per byte).  Filesystem
reads are total here: the claims settled below are about the splitting,
naming, manifest, retry, rollback and cleanup logic, with I/O outcomes made
explicit as environment parameters (`Except` results) where a claim needs
them.  The remote store for one run is modelled as the list of file names
present in the run's folder (which starts empty: the folder name embeds the
run's timestamp, so it is exclusive to the run).
-/

/-- `CHUNK_SIZE` from `backup.ts` line 11: 9MB, under Cloudinary's 10MB limit. -/
def CHUNK_SIZE : Nat := 9 * 1024 * 1024

/-- `MAX_UPLOAD_RETRIES` from `backup.ts` line 12. -/
def MAX_UPLOAD_RETRIES : Nat := 3

/-- `RETRY_DELAY_MS` from `backup.ts` line 13. -/
def RETRY_DELAY_MS : Nat := 2000

/-- Chunks yielded by `createReadStream(inputPath, { highWaterMark: cs })`
(`backup.ts` line 61): successive blocks of exactly `cs` bytes, the last one
possibly smaller, never empty.  Structural recursion on an explicit fuel (the
number of reads still allowed) keeps the definition kernel-reducible; the
stream semantics is meaningful for `cs > 0` only (the source passes
`CHUNK_SIZE`). -/
def chunksOfGo : Nat → Nat → List α → List (List α)
  | 0, _, _ => []
  | _ + 1, _, [] => []
  | fuel + 1, cs, a :: l =>
    (a :: l).take cs :: chunksOfGo fuel cs ((a :: l).drop cs)

/-- Chunking with the fuel fixed to the list's length, which suffices because
every read consumes at least one element (the stream's chunk size is
positive). -/
def chunksOf (cs : Nat) (l : List α) : List (List α) :=
  chunksOfGo l.length cs l

/-- JavaScript `String.prototype.padStart(targetLength, padChar)`
(`backup.ts` line 65). -/
def padStart (s : String) (targetLength : Nat) (padChar : Char) : String :=
  if targetLength ≤ s.length then s
  else String.mk (List.replicate (targetLength - s.length) padChar) ++ s

/-- Part file name `${baseFilename}.${String(partNumber).padStart(3, "0")}`
(`backup.ts` line 65). -/
def partFilename (baseFilename : String) (partNumber : Nat) : String :=
  baseFilename ++ "." ++ padStart (toString partNumber) 3 '0'

/-- The body of the `for await` loop of `splitFile` (`backup.ts` lines 62-74):
name the chunks with consecutive part numbers starting from `partNumber`,
pairing each part name with the chunk written to it. -/
def numberParts (baseFilename : String) (partNumber : Nat) :
    List (List Nat) → List (String × List Nat)
  | [] => []
  | c :: cs => (partFilename baseFilename partNumber, c) ::
      numberParts baseFilename (partNumber + 1) cs

/-- `splitFile` (`backup.ts` lines 45-78): split `content` into chunks of
`chunkSize` bytes (the source always passes `CHUNK_SIZE`), writing each chunk
to its own file named with a 1-based zero-padded sequence suffix; returns the
ordered part names paired with the part contents (the source returns the part
paths together with `sizes`, the chunk lengths). -/
def splitFile (chunkSize : Nat) (baseFilename : String) (content : List Nat) :
    List (String × List Nat) :=
  numberParts baseFilename 1 (chunksOf chunkSize content)

/-- One `hash.update(data)` step of `calculateChecksum` (`backup.ts` line 39):
the hash state accumulates the bytes seen so far. -/
def hashUpdate (state data : List Nat) : List Nat := state ++ data

/-- `calculateChecksum` (`backup.ts` lines 35-43): stream the file's chunks
through an incremental hash and digest at the end.  `md5` is the digest
function of the hash algorithm, a pure function of the accumulated bytes;
`chunks` is the chunking in which the platform's read stream delivers the
file's bytes. -/
def calculateChecksum (md5 : List Nat → String) (chunks : List (List Nat)) :
    String :=
  md5 (chunks.foldl hashUpdate [])

/-- Per-part entry of the `Manifest` interface (`backup.ts` lines 26-30). -/
structure PartDescriptor where
  filename : String
  size : Nat
  checksum : String
deriving DecidableEq, Repr

/-- The `Manifest` interface (`backup.ts` lines 21-31). -/
structure Manifest where
  originalFilename : String
  totalParts : Nat
  totalSize : Nat
  createdAt : String
  parts : List PartDescriptor
deriving DecidableEq, Repr

/-- Steps 3-4 of `backup` (`backup.ts` lines 190-240): decide `needsSplit` by
comparing the compressed size to the threshold (the source uses `CHUNK_SIZE`;
it is a parameter here so that claims about arbitrary thresholds can be
stated), split if needed, build the manifest with a checksum per part, and
collect the names of the files to upload (the source keeps `(path, name)`
pairs; the run folder is fixed, so the names identify the files).  In the
split branch `totalSize` is `sizes.reduce((a, b) => a + b, 0)` and each part's
manifest entry records the chunk's length and checksum; in the no-split branch
the single file to upload is the compressed artifact itself under its own
name.  Each part's checksum is its content digest (by `calculateChecksum`
the chunking of the read does not matter, so one chunk is used here). -/
def backupPrepare (md5 : List Nat → String) (chunkSize : Nat)
    (compressedFilename createdAt : String) (content : List Nat) :
    Manifest × List String :=
  if content.length > chunkSize then
    let parts := splitFile chunkSize compressedFilename content
    ({ originalFilename := compressedFilename
       totalParts := parts.length
       totalSize := (parts.map (fun p => p.2.length)).foldl (fun a b => a + b) 0
       createdAt := createdAt
       parts := parts.map (fun p =>
         { filename := p.1
           size := p.2.length
           checksum := calculateChecksum md5 [p.2] }) },
     parts.map (fun p => p.1))
  else
    ({ originalFilename := compressedFilename
       totalParts := 1
       totalSize := content.length
       createdAt := createdAt
       parts := [{ filename := compressedFilename
                   size := content.length
                   checksum := calculateChecksum md5 [content] }] },
     [compressedFilename])

/-- Structured JSON documents, modelling `JSON.stringify` output
(`backup.ts` line 244): object fields are serialized in insertion order and
arrays in element order. -/
inductive Json where
  | str (s : String)
  | num (n : Nat)
  | arr (elems : List Json)
  | obj (fields : List (String × Json))

/-- Serialization of one element of `manifest.parts`. -/
def partToJson (p : PartDescriptor) : Json :=
  .obj [("filename", .str p.filename),
        ("size", .num p.size),
        ("checksum", .str p.checksum)]

/-- Serialization of a `Manifest` value, field for field in declaration and
insertion order, as `JSON.stringify(manifest, null, 2)` emits it. -/
def manifestToJson (m : Manifest) : Json :=
  .obj [("originalFilename", .str m.originalFilename),
        ("totalParts", .num m.totalParts),
        ("totalSize", .num m.totalSize),
        ("createdAt", .str m.createdAt),
        ("parts", .arr (m.parts.map partToJson))]

/-- Field names of a serialized JSON object, in serialization order. -/
def jsonFieldNames : Json → List String
  | .obj fields => fields.map (fun f => f.1)
  | _ => []

/-- Value of a field of a serialized JSON object. -/
def jsonLookupField (j : Json) (key : String) : Option Json :=
  match j with
  | .obj fields => (fields.find? (fun f => f.1 == key)).map (fun f => f.2)
  | _ => none

/-- Observable events of one `uploadToCloudinaryWithRetry` call: an upload
attempt (with its 1-based attempt number), or a `sleep` of the given number of
milliseconds. -/
inductive UEvent where
  | tryUpload (attempt : Nat)
  | sleep (ms : Nat)
deriving DecidableEq, Repr

/-- Message of the error thrown after the retry loop (`backup.ts` line 110):
`Failed to upload after ${MAX_UPLOAD_RETRIES} attempts: ${lastError?.message}`.
A `null` `lastError` renders as `undefined` in JavaScript; the loop always
runs, so this case is unreachable from `uploadToCloudinaryWithRetry`. -/
def exhaustMessage (lastError : Option String) : String :=
  "Failed to upload after " ++ toString MAX_UPLOAD_RETRIES ++ " attempts: " ++
    lastError.getD "undefined"

/-- The retry loop of `uploadToCloudinaryWithRetry` (`backup.ts` lines 89-110)
from attempt number `attempt` on, with `fuel = MAX_UPLOAD_RETRIES - attempt + 1`
iterations left.  `res attempt` is the outcome of the `attempt`-th
`cloudinary.uploader.upload` call: the secure URL, or the thrown error's
message.  Returns the emitted events and the call's result. -/
def retryFrom (res : Nat → Except String String) :
    Nat → Option String → Nat → List UEvent × Except String String
  | _, lastError, 0 => ([], .error (exhaustMessage lastError))
  | attempt, _, fuel + 1 =>
    match res attempt with
    | .ok url => ([.tryUpload attempt], .ok url)
    | .error e =>
      let rest := retryFrom res (attempt + 1) (some e) fuel
      if attempt < MAX_UPLOAD_RETRIES then
        (.tryUpload attempt :: .sleep RETRY_DELAY_MS :: rest.1, rest.2)
      else
        (.tryUpload attempt :: rest.1, rest.2)

/-- `uploadToCloudinaryWithRetry` (`backup.ts` lines 80-111).  `name` is the
`public_id` under which the file is uploaded; note that the error thrown on
exhaustion (`exhaustMessage`) does not mention it. -/
def uploadToCloudinaryWithRetry (res : Nat → Except String String)
    (name : String) : List UEvent × Except String String :=
  retryFrom res 1 none MAX_UPLOAD_RETRIES

/-- Specification-side statement of the per-file retry policy, for comparison
with `uploadToCloudinaryWithRetry`: at most 3 attempts, a fixed 2000ms sleep
between consecutive attempts and none after the last, success on any attempt
returns that attempt's URL, and exhaustion signals an error carrying the
attempt cap and the last attempt's error message. -/
def retryPolicySpec (res : Nat → Except String String) :
    List UEvent × Except String String :=
  match res 1 with
  | .ok url => ([.tryUpload 1], .ok url)
  | .error _ =>
    match res 2 with
    | .ok url => ([.tryUpload 1, .sleep 2000, .tryUpload 2], .ok url)
    | .error _ =>
      match res 3 with
      | .ok url =>
        ([.tryUpload 1, .sleep 2000, .tryUpload 2, .sleep 2000, .tryUpload 3],
         .ok url)
      | .error e3 =>
        ([.tryUpload 1, .sleep 2000, .tryUpload 2, .sleep 2000, .tryUpload 3],
         .error ("Failed to upload after 3 attempts: " ++ e3))

/-- One `cloudinary.uploader.destroy` call inside the rollback loop
(`backup.ts` lines 116-122): if the destroy succeeds the file is no longer in
the run's folder; if it throws, the `catch` swallows the error and the file
stays. -/
def applyDestroy (deleteOk : String → Bool) (remote : List String)
    (name : String) : List String :=
  if deleteOk name then remote.erase name else remote

/-- `deleteCloudinaryFiles` (`backup.ts` lines 113-124): destroy each of
`fileNames` in order, swallowing per-file failures.  Returns the names a
destroy was attempted for (in order) and the remote folder contents
afterwards. -/
def deleteCloudinaryFiles (deleteOk : String → Bool) :
    List String → List String → List String × List String
  | remote, [] => ([], remote)
  | remote, n :: ns =>
    let rest := deleteCloudinaryFiles deleteOk (applyDestroy deleteOk remote n) ns
    (n :: rest.1, rest.2)

/-- Environment of one run's upload phase: `uploadResult name attempt` is the
outcome of the `attempt`-th upload attempt of file `name`, and `deleteOk name`
says whether a rollback destroy of `name` succeeds. -/
structure UploadEnv where
  uploadResult : String → Nat → Except String String
  deleteOk : String → Bool

/-- Result of the full retry call for one file of the run. -/
def uploadOutcome (env : UploadEnv) (name : String) : Except String String :=
  (uploadToCloudinaryWithRetry (env.uploadResult name) name).2

/-- Mutable state of the upload phase: the `uploadedFiles` bookkeeping list
(`backup.ts` line 177) and the contents of the run's remote folder. -/
structure UploadState where
  uploadedFiles : List String
  remote : List String

/-- Observable outcome of the upload phase: the files an upload was attempted
for, the remote folder contents after each mutation of the remote store (one
entry per successful upload, plus one for the rollback), the final bookkeeping
list, the names destroy was called on during rollback, the final remote folder
contents, and the phase's result. -/
structure RunOutcome where
  attempted : List String
  trace : List (List String)
  uploadedFiles : List String
  deleteAttempts : List String
  remote : List String
  result : Except String Unit

/-- The upload loops of `backup` (`backup.ts` lines 249-279): upload the files
in order; on success push the name onto `uploadedFiles`; on a permanent
failure call `deleteCloudinaryFiles` on the `uploadedFiles` collected so far
and rethrow the original error, abandoning the remaining files. -/
def uploadSeq (env : UploadEnv) : List String → UploadState → RunOutcome
  | [], st => ⟨[], [], st.uploadedFiles, [], st.remote, .ok ()⟩
  | f :: fs, st =>
    match uploadOutcome env f with
    | .ok _ =>
      let st' : UploadState := ⟨st.uploadedFiles ++ [f], st.remote ++ [f]⟩
      let o := uploadSeq env fs st'
      ⟨f :: o.attempted, st'.remote :: o.trace, o.uploadedFiles,
        o.deleteAttempts, o.remote, o.result⟩
    | .error e =>
      let d := deleteCloudinaryFiles env.deleteOk st.remote st.uploadedFiles
      ⟨[f], [d.2], st.uploadedFiles, d.1, d.2, .error e⟩

/-- Steps 6-7 of `backup` (`backup.ts` lines 246-279): upload every part in
order and then `manifest.json`, into the run's fresh (empty) remote folder,
with empty bookkeeping.  The source writes the two loops separately; their
bodies are identical, so they are the fold of `uploadSeq` over the combined
list with the manifest last. -/
def backupUploadPhase (env : UploadEnv) (partNames : List String) : RunOutcome :=
  uploadSeq env (partNames ++ ["manifest.json"]) ⟨[], []⟩

/-- Outcomes of the I/O steps of one `backup` run (`backup.ts` lines 179-291),
made explicit: each field is the result of the corresponding pipeline step,
`statRes` carrying the compressed file's size on success, and `rmThrows`
saying whether the final `rm` of the workspace throws. -/
structure PipelineEnv where
  mkdirRes : Except String Unit
  dumpRes : Except String Unit
  compressRes : Except String Unit
  statRes : Except String Nat
  splitRes : Except String Unit
  checksumRes : Except String Unit
  manifestWriteRes : Except String Unit
  uploadRes : Except String Unit
  rmThrows : Bool

/-- The `try` body of `backup` (`backup.ts` lines 179-283): run the steps in
order, stopping at the first failure; segmentation runs only when the
compressed size exceeds `CHUNK_SIZE`. -/
def runPipelineSteps (env : PipelineEnv) : Except String Unit := do
  env.mkdirRes
  env.dumpRes
  env.compressRes
  let size ← env.statRes
  if size > CHUNK_SIZE then
    env.splitRes
    env.checksumRes
  else
    env.checksumRes
  env.manifestWriteRes
  env.uploadRes

/-- Outcome of the `rm(tempDir, { recursive: true, force: true })` call inside
`cleanupTempDir` (`backup.ts` line 158): with `force: true` a missing
directory is not an error, but the call can still throw (e.g. permissions). -/
def rmOutcome (rmThrows : Bool) : Except String Unit :=
  if rmThrows then .error "rm failed" else .ok ()

/-- `cleanupTempDir` (`backup.ts` lines 155-162): attempt the `rm` and swallow
any error.  Returns whether the workspace directory still exists afterwards,
and the call's (never failing) result. -/
def cleanupTempDir (dirExists rmThrows : Bool) : Bool × Except String Unit :=
  match rmOutcome rmThrows with
  | .ok _ => (false, .ok ())
  | .error _ => (dirExists, .ok ())

/-- The `try`/`catch`/`finally` shell of `backup` (`backup.ts` lines 179-291):
the `catch` logs and rethrows the pipeline's own error unchanged; the
`finally` always runs `cleanupTempDir` on the workspace (which exists exactly
when `mkdir` succeeded).  Were the `finally` body to throw, JavaScript would
replace the result with that error — the match models this.  Returns the
run's result and whether the workspace directory remains. -/
def backupRun (env : PipelineEnv) : Except String Unit × Bool :=
  let r := runPipelineSteps env
  let dirBefore := match env.mkdirRes with | .ok _ => true | .error _ => false
  match cleanupTempDir dirBefore env.rmThrows with
  | (dirAfter, .ok _) => (r, dirAfter)
  | (dirAfter, .error e) => (.error e, dirAfter)

/-! Helper lemmas about the chunking of the read stream. -/

theorem chunksOfGo_nil (fuel cs : Nat) : chunksOfGo fuel cs ([] : List α) = [] := by
  cases fuel <;> rfl

theorem chunksOfGo_congr (cs : Nat) (f1 : Nat) :
    ∀ (f2 : Nat) (l : List α), l.length ≤ f1 → l.length ≤ f2 →
      chunksOfGo f1 (cs + 1) l = chunksOfGo f2 (cs + 1) l := by
  induction f1 with
  | zero =>
    intro f2 l h1 _
    have : l = [] := List.eq_nil_of_length_eq_zero (Nat.le_zero.mp h1)
    subst this
    simp [chunksOfGo_nil]
  | succ f ih =>
    intro f2 l h1 h2
    cases l with
    | nil => simp [chunksOfGo_nil]
    | cons a t =>
      cases f2 with
      | zero => simp at h2
      | succ f2 =>
        show _ :: _ = _ :: _
        have hd : ((a :: t).drop (cs + 1)).length ≤ t.length := by
          simp [List.length_drop]
        exact congrArg _ (ih _ _ (le_trans hd (Nat.le_of_succ_le_succ h1))
          (le_trans hd (Nat.le_of_succ_le_succ h2)))

theorem chunksOf_cons (cs : Nat) (a : α) (t : List α) :
    chunksOf (cs + 1) (a :: t) =
      (a :: t).take (cs + 1) :: chunksOf (cs + 1) ((a :: t).drop (cs + 1)) := by
  show chunksOfGo (t.length + 1) (cs + 1) (a :: t) = _
  show _ :: chunksOfGo t.length (cs + 1) ((a :: t).drop (cs + 1)) = _
  exact congrArg _ (chunksOfGo_congr cs t.length _ _
    (by simp [List.length_drop]) (le_refl _))

theorem chunksOf_flatten (cs : Nat) (l : List α) :
    (chunksOf (cs + 1) l).flatten = l := by
  cases l with
  | nil => rfl
  | cons a t =>
    rw [chunksOf_cons, List.flatten_cons,
      chunksOf_flatten cs ((a :: t).drop (cs + 1))]
    exact List.take_append_drop _ _
termination_by l.length
decreasing_by simp only [List.length_drop, List.length_cons]; omega

theorem chunksOf_sum_sizes (cs : Nat) (l : List α) :
    ((chunksOf (cs + 1) l).map List.length).sum = l.length := by
  rw [← List.length_flatten, chunksOf_flatten]

theorem chunksOf_ne_nil (cs : Nat) (a : α) (t : List α) :
    chunksOf (cs + 1) (a :: t) ≠ [] := by
  rw [chunksOf_cons]
  simp

theorem chunksOf_mem_bounds (cs : Nat) (l : List α) :
    ∀ c ∈ chunksOf (cs + 1) l, 0 < c.length ∧ c.length ≤ cs + 1 := by
  cases l with
  | nil =>
    intro c hc
    exact absurd hc (List.not_mem_nil c)
  | cons a t =>
    rw [chunksOf_cons]
    intro c hc
    rcases List.mem_cons.mp hc with h | h
    · subst h
      refine ⟨by simp, ?_⟩
      simp [List.length_take]
    · exact chunksOf_mem_bounds cs ((a :: t).drop (cs + 1)) c h
termination_by l.length
decreasing_by simp only [List.length_drop, List.length_cons]; omega

theorem chunksOf_length_chunks (cs : Nat) (l : List α) :
    (chunksOf (cs + 1) l).length = (l.length + cs) / (cs + 1) := by
  cases l with
  | nil =>
    show (0 : Nat) = (0 + cs) / (cs + 1)
    rw [Nat.zero_add, Nat.div_eq_of_lt (Nat.lt_succ_self cs)]
  | cons a t =>
    rw [chunksOf_cons]
    have ih := chunksOf_length_chunks cs ((a :: t).drop (cs + 1))
    simp only [List.length_cons, List.length_drop] at ih ⊢
    rw [ih]
    rcases Nat.lt_or_ge (t.length + 1) (cs + 1) with hS | hS
    · have e1 : t.length + 1 - (cs + 1) + cs = cs := by omega
      have e2 : t.length + 1 + cs = t.length + (cs + 1) := by omega
      rw [e1, Nat.div_eq_of_lt (Nat.lt_succ_self cs), e2,
        Nat.add_div_right _ (Nat.succ_pos cs), Nat.div_eq_of_lt (by omega)]
    · have e1 : t.length + 1 - (cs + 1) + cs = t.length := by omega
      have e2 : t.length + 1 + cs = t.length + (cs + 1) := by omega
      rw [e1, e2, Nat.add_div_right _ (Nat.succ_pos cs)]
termination_by l.length
decreasing_by simp only [List.length_drop, List.length_cons]; omega

theorem chunksOf_dropLast_sizes (cs : Nat) (l : List α) :
    ∀ c ∈ (chunksOf (cs + 1) l).dropLast, c.length = cs + 1 := by
  cases l with
  | nil =>
    intro c hc
    exact absurd hc (List.not_mem_nil c)
  | cons a t =>
    rw [chunksOf_cons]
    intro c hc
    rcases hrest : chunksOf (cs + 1) ((a :: t).drop (cs + 1)) with _ | ⟨r, rs⟩
    · rw [hrest] at hc
      simp at hc
    · rw [hrest, List.dropLast_cons₂] at hc
      rcases List.mem_cons.mp hc with h | h
      · subst h
        have hne : (a :: t).drop (cs + 1) ≠ [] := by
          intro hnil
          rw [hnil] at hrest
          exact absurd hrest.symm (List.cons_ne_nil r rs)
        have hlt : cs + 1 < t.length + 1 := by
          by_contra hle
          exact hne (List.drop_eq_nil_of_le (by
            simpa using Nat.le_of_not_lt hle))
        simp [List.length_take]
        omega
      · have hmem := chunksOf_dropLast_sizes cs ((a :: t).drop (cs + 1))
        rw [hrest] at hmem
        exact hmem c h
termination_by l.length
decreasing_by simp only [List.length_drop, List.length_cons]; omega

/-! Helper lemmas about part numbering and folds. -/

theorem numberParts_map_snd (base : String) (n : Nat) (cs : List (List Nat)) :
    (numberParts base n cs).map (fun p => p.2) = cs := by
  induction cs generalizing n with
  | nil => rfl
  | cons c cs ih => simp [numberParts, ih]

theorem foldl_add_eq_sum (l : List Nat) (a : Nat) :
    l.foldl (fun x y => x + y) a = a + l.sum := by
  induction l generalizing a with
  | nil => simp
  | cons x xs ih => simp [ih]; omega

theorem foldl_hashUpdate (chunks : List (List Nat)) (a : List Nat) :
    chunks.foldl hashUpdate a = a ++ chunks.flatten := by
  induction chunks generalizing a with
  | nil => simp
  | cons c cs ih => simp [hashUpdate, ih]

theorem splitFile_sizes (cs : Nat) (base : String) (content : List Nat) :
    (splitFile (cs + 1) base content).map (fun p => p.2.length)
      = (chunksOf (cs + 1) content).map List.length := by
  unfold splitFile
  rw [show (fun (p : String × List Nat) => p.2.length)
        = (List.length ∘ fun (p : String × List Nat) => p.2) from rfl,
    ← List.map_map, numberParts_map_snd]

theorem backupPrepare_split_sizes (md5 : List Nat → String) (cs : Nat)
    (base ca : String) (content : List Nat) (h : content.length > cs + 1) :
    (backupPrepare md5 (cs + 1) base ca content).1.parts.map (fun p => p.size)
      = (chunksOf (cs + 1) content).map List.length := by
  unfold backupPrepare
  rw [if_pos h]
  simp only [List.map_map]
  exact splitFile_sizes cs base content

/-- C3: for every input file of size `S` and positive chunk threshold `T`:
if `S ≤ T` the file is not split and exactly one part of size `S` is
produced; if `S > T` the segmentation produces `⌈S/T⌉ = (S + T - 1) / T`
parts, every part except the last has size exactly `T`, and the last has
size `S - T*(n-1)`, which lies in `(0, T]`. -/
theorem splitFile_part_sizes (T : Nat) (hT : 0 < T) (md5 : List Nat → String)
    (base ca : String) (content : List Nat) :
    (content.length ≤ T →
      (backupPrepare md5 T base ca content).1.parts.map (fun p => p.size)
        = [content.length]) ∧
    (T < content.length →
      ((backupPrepare md5 T base ca content).1.parts.map
          (fun p => p.size)).length = (content.length + T - 1) / T ∧
      (∀ s ∈ ((backupPrepare md5 T base ca content).1.parts.map
          (fun p => p.size)).dropLast, s = T) ∧
      ((backupPrepare md5 T base ca content).1.parts.map
          (fun p => p.size)).getLast?
        = some (content.length - T * (((backupPrepare md5 T base ca
            content).1.parts.map (fun p => p.size)).length - 1)) ∧
      0 < content.length - T * (((backupPrepare md5 T base ca
          content).1.parts.map (fun p => p.size)).length - 1) ∧
      content.length - T * (((backupPrepare md5 T base ca
          content).1.parts.map (fun p => p.size)).length - 1) ≤ T) := by
  obtain ⟨cs, rfl⟩ : ∃ cs, T = cs + 1 := ⟨T - 1, by omega⟩
  set S := content.length
  set sizes := (backupPrepare md5 (cs + 1) base ca content).1.parts.map
    (fun p => p.size) with hsizes
  set n := sizes.length
  constructor
  · intro hle
    have hnot : ¬(content.length > cs + 1) := by omega
    show (backupPrepare md5 (cs + 1) base ca content).1.parts.map
      (fun p => p.size) = [content.length]
    unfold backupPrepare
    rw [if_neg hnot]
    rfl
  · intro hgt
    have hsz : sizes = (chunksOf (cs + 1) content).map List.length :=
      backupPrepare_split_sizes md5 cs base ca content hgt
    have hsum : sizes.sum = S := by rw [hsz]; exact chunksOf_sum_sizes cs content
    have hcontent : content ≠ [] := by
      intro hnil
      have hS0 : S = 0 := by
        show content.length = 0
        rw [hnil]
        rfl
      omega
    have hchunks : chunksOf (cs + 1) content ≠ [] := by
      cases content with
      | nil => exact absurd rfl hcontent
      | cons a t => exact chunksOf_ne_nil cs a t
    have hne : sizes ≠ [] := by
      rw [hsz]
      exact fun hnil => hchunks (List.map_eq_nil_iff.mp hnil)
    have hlen : n = (S + (cs + 1) - 1) / (cs + 1) := by
      show sizes.length = _
      have harg : S + (cs + 1) - 1 = content.length + cs := by omega
      rw [harg, hsz, List.length_map, chunksOf_length_chunks]
    have hdl : ∀ s ∈ sizes.dropLast, s = cs + 1 := by
      intro s hs
      rw [hsz, ← List.map_dropLast] at hs
      obtain ⟨c, hc, hcl⟩ := List.mem_map.mp hs
      rw [← hcl]
      exact chunksOf_dropLast_sizes cs content c hc
    have hrep : sizes.dropLast = List.replicate sizes.dropLast.length (cs + 1) :=
      List.eq_replicate_iff.mpr ⟨rfl, hdl⟩
    have hdlsum : sizes.dropLast.sum = (n - 1) * (cs + 1) := by
      rw [hrep, List.sum_replicate, smul_eq_mul, List.length_dropLast]
    have hdecomp := List.dropLast_append_getLast hne
    have hsplitsum : (n - 1) * (cs + 1) + sizes.getLast hne = S := by
      rw [← hdlsum]
      rw [← hsum]
      conv_rhs => rw [← hdecomp]
      rw [List.sum_append]
      simp
    have hlast : sizes.getLast hne = S - (cs + 1) * (n - 1) := by
      rw [Nat.mul_comm (cs + 1) (n - 1), ← hsplitsum, Nat.add_sub_cancel_left]
    have hball : ∀ s ∈ sizes, 0 < s ∧ s ≤ cs + 1 := by
      intro s hs
      rw [hsz] at hs
      obtain ⟨c, hc, hcl⟩ := List.mem_map.mp hs
      rw [← hcl]
      exact chunksOf_mem_bounds cs content c hc
    have hbounds : 0 < sizes.getLast hne ∧ sizes.getLast hne ≤ cs + 1 :=
      hball _ (List.getLast_mem hne)
    refine ⟨hlen, hdl, ?_, ?_, ?_⟩
    · rw [List.getLast?_eq_getLast sizes hne, hlast]
    · rw [← hlast]; exact hbounds.1
    · rw [← hlast]; exact hbounds.2

/-- Witness for `splitFile_part_sizes` at `T = 2` and a five-byte file:
three parts, the first two of size 2, the last of size `5 - 2*2 = 1`. -/
theorem splitFile_part_sizes_witness :
    ((backupPrepare (fun l => toString l) 2 "b.gz" "T" [1, 2, 3, 4, 5]).1.parts.map
      (fun p => p.size)).getLast? = some 1 ∧
    ((backupPrepare (fun l => toString l) 2 "b.gz" "T" [1, 2, 3, 4, 5]).1.parts.map
      (fun p => p.size)).length = 3 := by
  have h := splitFile_part_sizes 2 (by decide) (fun l => toString l) "b.gz" "T"
    [1, 2, 3, 4, 5]
  have h2 := h.2 (by decide)
  exact ⟨h2.2.2.1.trans (by decide), h2.1.trans (by decide)⟩

theorem manifest_totals_general (md5 : List Nat → String) (cs : Nat)
    (base ca : String) (content : List Nat) :
    ((backupPrepare md5 (cs + 1) base ca content).1.parts.map
        (fun p => p.size)).sum
      = (backupPrepare md5 (cs + 1) base ca content).1.totalSize ∧
    (backupPrepare md5 (cs + 1) base ca content).1.totalSize = content.length ∧
    (backupPrepare md5 (cs + 1) base ca content).1.parts ≠ [] ∧
    (content.length ≤ cs + 1 →
      (backupPrepare md5 (cs + 1) base ca content).1.parts.map
        (fun p => (p.filename, p.size)) = [(base, content.length)]) := by
  by_cases h : content.length > cs + 1
  · have hsz := backupPrepare_split_sizes md5 cs base ca content h
    have hts : (backupPrepare md5 (cs + 1) base ca content).1.totalSize
        = ((chunksOf (cs + 1) content).map List.length).sum := by
      unfold backupPrepare
      rw [if_pos h]
      show ((splitFile (cs + 1) base content).map
        (fun p => p.2.length)).foldl (fun a b => a + b) 0 = _
      rw [splitFile_sizes, foldl_add_eq_sum, Nat.zero_add]
    refine ⟨by rw [hsz, hts], hts.trans (chunksOf_sum_sizes cs content), ?_,
      fun hle => absurd h (by omega)⟩
    have hlen : (backupPrepare md5 (cs + 1) base ca content).1.parts.map
        (fun p => p.size) ≠ [] := by
      rw [hsz]
      intro hnil
      have hchunks := List.map_eq_nil_iff.mp hnil
      cases hcont : content with
      | nil => rw [hcont] at h; simp at h
      | cons a t => exact chunksOf_ne_nil cs a t (by rw [← hcont]; exact hchunks)
    intro hnil
    rw [hnil] at hlen
    exact hlen rfl
  · refine ⟨?_, ?_, ?_, fun _ => ?_⟩ <;>
      (unfold backupPrepare; rw [if_neg h]) <;> simp

/-- C4: in the manifest constructed by a run, the sum of `parts[].size`
equals `totalSize`, which equals the compressed artifact's size on disk (no
bytes lost or duplicated across the split); `parts` is non-empty; and in the
no-split case `parts` has exactly one element, the whole compressed file
under its own name. -/
theorem manifest_totals_consistent (md5 : List Nat → String)
    (base ca : String) (content : List Nat) :
    ((backupPrepare md5 CHUNK_SIZE base ca content).1.parts.map
        (fun p => p.size)).sum
      = (backupPrepare md5 CHUNK_SIZE base ca content).1.totalSize ∧
    (backupPrepare md5 CHUNK_SIZE base ca content).1.totalSize
      = content.length ∧
    (backupPrepare md5 CHUNK_SIZE base ca content).1.parts ≠ [] ∧
    (content.length ≤ CHUNK_SIZE →
      (backupPrepare md5 CHUNK_SIZE base ca content).1.parts.map
        (fun p => (p.filename, p.size)) = [(base, content.length)]) := by
  have hcs : CHUNK_SIZE = (CHUNK_SIZE - 1) + 1 := by norm_num [CHUNK_SIZE]
  rw [hcs]
  exact manifest_totals_general md5 (CHUNK_SIZE - 1) base ca content

/-- Witness for `manifest_totals_consistent` at a two-byte compressed file
(under the threshold): one part, the whole file under its own name. -/
theorem manifest_totals_consistent_witness :
    ((backupPrepare (fun l => toString l) CHUNK_SIZE "b.gz" "T" [1, 2]).1.parts.map
      (fun p => (p.filename, p.size))) = [("b.gz", 2)] := by
  have h := manifest_totals_consistent (fun l => toString l) "b.gz" "T" [1, 2]
  exact (h.2.2.2 (by norm_num [CHUNK_SIZE])).trans (by decide)

/-- C9: the checksum is a pure function of the file's byte content: any two
read chunkings carrying the same bytes produce the same digest, so two runs
of the hasher over the same bytes agree, independently of platform chunking. -/
theorem checksum_deterministic (md5 : List Nat → String)
    (chunks1 chunks2 : List (List Nat))
    (h : chunks1.flatten = chunks2.flatten) :
    calculateChecksum md5 chunks1 = calculateChecksum md5 chunks2 := by
  unfold calculateChecksum
  rw [foldl_hashUpdate, foldl_hashUpdate, h]

/-- Witness for `checksum_deterministic`: two different chunkings of the
bytes `[1, 2, 3]` hash identically. -/
theorem checksum_deterministic_witness :
    calculateChecksum (fun l => toString l) [[1, 2], [3]]
      = calculateChecksum (fun l => toString l) [[1], [2, 3]] :=
  checksum_deterministic (fun l => toString l) [[1, 2], [3]] [[1], [2, 3]]
    (by decide)

/-- C8: the serialized manifest has exactly the field names
`originalFilename`, `totalParts`, `totalSize`, `createdAt` and `parts`, each
serialized part exactly `filename`, `size` and `checksum`; `totalParts`
equals the number of parts; and the serialized `parts` sequence is the
manifest's parts list in order. -/
theorem manifest_serialization (md5 : List Nat → String)
    (base ca : String) (content : List Nat) (p : PartDescriptor) :
    let m := (backupPrepare md5 CHUNK_SIZE base ca content).1
    jsonFieldNames (manifestToJson m)
      = ["originalFilename", "totalParts", "totalSize", "createdAt", "parts"] ∧
    jsonFieldNames (partToJson p) = ["filename", "size", "checksum"] ∧
    jsonLookupField (manifestToJson m) "parts"
      = some (.arr (m.parts.map partToJson)) ∧
    m.totalParts = m.parts.length := by
  intro m
  refine ⟨rfl, rfl, rfl, ?_⟩
  show (backupPrepare md5 CHUNK_SIZE base ca content).1.totalParts
    = (backupPrepare md5 CHUNK_SIZE base ca content).1.parts.length
  unfold backupPrepare
  by_cases h : content.length > CHUNK_SIZE
  · rw [if_pos h]
    show (splitFile CHUNK_SIZE base content).length = _
    simp [List.length_map]
  · rw [if_neg h]
    rfl

/-- C7 (failing input): for a compressed artifact below the threshold the
code uploads the single part under the bare compressed filename and records
that name in the manifest, with no `.001` sequence suffix — while the
repository's restore script looks for `{originalFilename}.001` whenever
`totalParts = 1`. -/
theorem singlePart_name_unsuffixed :
    (backupPrepare (fun _ => "h") CHUNK_SIZE "backup-T.sql.gz" "T"
        [1, 2, 3, 4, 5]).2 = ["backup-T.sql.gz"] ∧
    (backupPrepare (fun _ => "h") CHUNK_SIZE "backup-T.sql.gz" "T"
        [1, 2, 3, 4, 5]).1.parts.map (fun p => p.filename)
      = ["backup-T.sql.gz"] ∧
    (backupPrepare (fun _ => "h") CHUNK_SIZE "backup-T.sql.gz" "T"
        [1, 2, 3, 4, 5]).1.totalParts = 1 ∧
    partFilename "backup-T.sql.gz" 1 = "backup-T.sql.gz.001" ∧
    "backup-T.sql.gz" ≠ "backup-T.sql.gz.001" := by
  refine ⟨?_, ?_, ?_, ?_, ?_⟩ <;> decide

/-! Helper lemmas about rollback deletion and the upload loop. -/

theorem deleteFiles_attempts (dok : String → Bool) (remote names : List String) :
    (deleteCloudinaryFiles dok remote names).1 = names := by
  induction names generalizing remote with
  | nil => rfl
  | cons n ns ih => simp [deleteCloudinaryFiles, ih]

theorem deleteFiles_subset (dok : String → Bool) (remote names : List String) :
    (deleteCloudinaryFiles dok remote names).2 ⊆ remote := by
  induction names generalizing remote with
  | nil => simp [deleteCloudinaryFiles]
  | cons n ns ih =>
    show (deleteCloudinaryFiles dok (applyDestroy dok remote n) ns).2 ⊆ remote
    refine List.Subset.trans (ih (applyDestroy dok remote n)) ?_
    unfold applyDestroy
    split
    · exact List.erase_subset _ _
    · exact List.Subset.refl _

theorem uploadSeq_rollback (env : UploadEnv) (e : String) :
    ∀ (pre : List String) (f : String) (post : List String) (st : UploadState),
      (∀ g ∈ pre, ∃ u, uploadOutcome env g = .ok u) →
      uploadOutcome env f = .error e →
      (uploadSeq env (pre ++ f :: post) st).deleteAttempts
          = st.uploadedFiles ++ pre ∧
      (uploadSeq env (pre ++ f :: post) st).result = .error e ∧
      (uploadSeq env (pre ++ f :: post) st).remote ⊆ st.remote ++ pre ∧
      ∀ s ∈ (uploadSeq env (pre ++ f :: post) st).trace, s ⊆ st.remote ++ pre := by
  intro pre
  induction pre with
  | nil =>
    intro f post st _ hf
    simp only [List.nil_append, uploadSeq, hf, List.append_nil]
    refine ⟨deleteFiles_attempts _ _ _, by trivial, deleteFiles_subset _ _ _, ?_⟩
    intro s hs
    rw [List.mem_singleton.mp hs]
    exact deleteFiles_subset _ _ _
  | cons g gs ih =>
    intro f post st hpre hf
    obtain ⟨u, hu⟩ := hpre g (List.mem_cons_self g gs)
    have hpre' : ∀ x ∈ gs, ∃ v, uploadOutcome env x = .ok v :=
      fun x hx => hpre x (List.mem_cons_of_mem g hx)
    have hih := ih f post ⟨st.uploadedFiles ++ [g], st.remote ++ [g]⟩ hpre' hf
    simp only [List.cons_append, uploadSeq, hu, List.append_eq]
    have hgrow : st.remote ++ [g] ++ gs = st.remote ++ g :: gs := by simp
    refine ⟨?_, hih.2.1, ?_, ?_⟩
    · rw [hih.1]
      simp
    · rw [← hgrow]
      exact hih.2.2.1
    · intro s hs
      rcases List.mem_cons.mp hs with h | h
      · rw [h]
        intro x hx
        rcases List.mem_append.mp hx with hx | hx
        · exact List.mem_append.mpr (Or.inl hx)
        · rw [List.mem_singleton.mp hx]
          exact List.mem_append.mpr (Or.inr (List.mem_cons_self g gs))
      · rw [← hgrow]
        exact hih.2.2.2 s h

theorem uploadSeq_manifest_last (env : UploadEnv) (m : String) :
    ∀ (others : List String) (st : UploadState), m ∉ others →
      ∀ s ∈ (uploadSeq env (others ++ [m]) st).trace, m ∈ s →
        m ∈ st.remote ∨ st.remote ++ others ⊆ s := by
  intro others
  induction others with
  | nil =>
    intro st _ s hs hmem
    rcases hout : uploadOutcome env m with e | u
    · simp only [List.nil_append, uploadSeq, hout] at hs
      rw [List.mem_singleton.mp hs] at hmem
      exact Or.inl (deleteFiles_subset _ _ _ hmem)
    · simp only [List.nil_append, uploadSeq, hout] at hs
      rw [List.mem_singleton.mp hs]
      exact Or.inr (by simp)
  | cons g gs ih =>
    intro st hm s hs hmem
    have hmg : m ≠ g := fun h => hm (h ▸ List.mem_cons_self g gs)
    have hmgs : m ∉ gs := fun h => hm (List.mem_cons_of_mem g h)
    rcases hout : uploadOutcome env g with e | u
    · simp only [List.cons_append, uploadSeq, hout] at hs
      rw [List.mem_singleton.mp hs] at hmem
      exact Or.inl (deleteFiles_subset _ _ _ hmem)
    · simp only [List.cons_append, uploadSeq, hout] at hs
      rcases List.mem_cons.mp hs with h | h
      · rw [h] at hmem
        rcases List.mem_append.mp hmem with hx | hx
        · exact Or.inl hx
        · exact absurd (List.mem_singleton.mp hx) hmg
      · rcases ih ⟨st.uploadedFiles ++ [g], st.remote ++ [g]⟩ hmgs s h hmem with
          hx | hx
        · rcases List.mem_append.mp hx with hy | hy
          · exact Or.inl hy
          · exact absurd (List.mem_singleton.mp hy) hmg
        · refine Or.inr ?_
          intro x hxmem
          refine hx ?_
          rcases List.mem_append.mp hxmem with hy | hy
          · exact List.mem_append.mpr (Or.inl (List.mem_append.mpr (Or.inl hy)))
          · rcases List.mem_cons.mp hy with hz | hz
            · exact List.mem_append.mpr
                (Or.inl (List.mem_append.mpr (Or.inr (by simp [hz]))))
            · exact List.mem_append.mpr (Or.inr hz)

theorem uploadSeq_attempt_order (env : UploadEnv) (m : String) :
    ∀ (others : List String) (st : UploadState), m ∉ others →
      m ∈ (uploadSeq env (others ++ [m]) st).attempted →
      ∀ p ∈ others, ∃ u, uploadOutcome env p = .ok u := by
  intro others
  induction others with
  | nil =>
    intro st _ _ p hp
    exact absurd hp (List.not_mem_nil p)
  | cons g gs ih =>
    intro st hm hatt p hp
    have hmg : m ≠ g := fun h => hm (h ▸ List.mem_cons_self g gs)
    have hmgs : m ∉ gs := fun h => hm (List.mem_cons_of_mem g h)
    rcases hout : uploadOutcome env g with e | u
    · simp only [List.cons_append, uploadSeq, hout] at hatt
      exact absurd (List.mem_singleton.mp hatt) hmg
    · simp only [List.cons_append, uploadSeq, hout] at hatt
      rcases List.mem_cons.mp hatt with h | h
      · exact absurd h hmg
      · rcases List.mem_cons.mp hp with hpg | hpgs
        · exact ⟨u, hpg ▸ hout⟩
        · exact ih ⟨st.uploadedFiles ++ [g], st.remote ++ [g]⟩ hmgs h p hpgs

/-- C1: if in a run the upload of some file `f` (a part or the manifest)
permanently fails after the files in `pre` were uploaded successfully,
rollback attempts a destroy for exactly the files of `pre` (in order,
independently of which destroys succeed, so a failed destroy does not abort
the rest), the original upload error is propagated as the phase's result,
and no file at or after the failing one is ever present remotely: the final
remote folder and every intermediate remote state only ever hold files of
`pre`. -/
theorem upload_rollback_exact (env : UploadEnv) (partNames : List String)
    (pre : List String) (f : String) (post : List String) (e : String)
    (hsplit : partNames ++ ["manifest.json"] = pre ++ f :: post)
    (hpre : ∀ g ∈ pre, ∃ u, uploadOutcome env g = .ok u)
    (hf : uploadOutcome env f = .error e)
    (hnd : (pre ++ f :: post).Nodup) :
    (backupUploadPhase env partNames).deleteAttempts = pre ∧
    (backupUploadPhase env partNames).result = .error e ∧
    (backupUploadPhase env partNames).remote ⊆ pre ∧
    f ∉ (backupUploadPhase env partNames).remote ∧
    (∀ g ∈ post, g ∉ (backupUploadPhase env partNames).remote) ∧
    ∀ s ∈ (backupUploadPhase env partNames).trace, s ⊆ pre := by
  unfold backupUploadPhase
  rw [hsplit]
  have h := uploadSeq_rollback env e pre f post ⟨[], []⟩ hpre hf
  simp only [List.nil_append] at h
  obtain ⟨h1, h2, h3, h4⟩ := h
  have hdisj := (List.nodup_append.mp hnd).2.2
  refine ⟨h1, h2, h3, ?_, ?_, h4⟩
  · intro hfin
    exact hdisj (h3 hfin) (List.mem_cons_self f post)
  · intro g hg hgin
    exact hdisj (h3 hgin) (List.mem_cons_of_mem f hg)

/-- Witness for `upload_rollback_exact`: two parts, the second fails all its
attempts; destroy is attempted exactly for the first part (even though the
destroy itself fails), the retry-exhaustion error is propagated, and neither
the second part nor the manifest is ever remote. -/
theorem upload_rollback_exact_witness :
    (backupUploadPhase
      ⟨fun f _ => if f = "p1" then .ok "u" else .error "boom", fun _ => false⟩
      ["p1", "p2"]).deleteAttempts = ["p1"] ∧
    (backupUploadPhase
      ⟨fun f _ => if f = "p1" then .ok "u" else .error "boom", fun _ => false⟩
      ["p1", "p2"]).result
      = .error "Failed to upload after 3 attempts: boom" := by
  have h := upload_rollback_exact
    ⟨fun f _ => if f = "p1" then .ok "u" else .error "boom", fun _ => false⟩
    ["p1", "p2"] ["p1"] "p2" ["manifest.json"]
    "Failed to upload after 3 attempts: boom" (by decide)
    (by
      intro g hg
      rw [List.mem_singleton.mp hg]
      exact ⟨"u", rfl⟩)
    rfl (by decide)
  exact ⟨h.1, h.2.1⟩

/-- C2: the manifest is the last file uploaded.  In every reachable remote
state of the upload phase, if the manifest is present then every part is
present (so its upload succeeded earlier), and the manifest's upload is even
attempted only if every part upload succeeded. -/
theorem manifest_uploaded_last (env : UploadEnv) (partNames : List String)
    (hm : "manifest.json" ∉ partNames) :
    (∀ s ∈ (backupUploadPhase env partNames).trace,
      "manifest.json" ∈ s → ∀ p ∈ partNames, p ∈ s) ∧
    ("manifest.json" ∈ (backupUploadPhase env partNames).attempted →
      ∀ p ∈ partNames, ∃ u, uploadOutcome env p = .ok u) := by
  constructor
  · intro s hs hmem p hp
    rcases uploadSeq_manifest_last env "manifest.json" partNames ⟨[], []⟩ hm
        s hs hmem with h | h
    · exact absurd h (List.not_mem_nil _)
    · exact h (List.mem_append.mpr (Or.inr hp))
  · exact uploadSeq_attempt_order env "manifest.json" partNames ⟨[], []⟩ hm

/-- Witness for `manifest_uploaded_last`: with one part whose upload
succeeds, the state in which the manifest is remote also contains the
part. -/
theorem manifest_uploaded_last_witness :
    ("p1" : String) ∈ (["p1", "manifest.json"] : List String) := by
  have h := manifest_uploaded_last ⟨fun _ _ => .ok "u", fun _ => true⟩ ["p1"]
    (by decide)
  exact h.1 ["p1", "manifest.json"] (by decide) (by decide) "p1" (by decide)

/-- C5 (counterexample to the claim as stated): the permanent-failure signal
does not carry the filename.  Two calls with different filenames but the same
attempt outcomes produce identical results, and the error is exactly the
attempt-count/last-error message, which names no file. -/
theorem uploadRetry_error_lacks_filename :
    uploadToCloudinaryWithRetry (fun _ => .error "boom") "fileA"
      = uploadToCloudinaryWithRetry (fun _ => .error "boom") "fileB" ∧
    (uploadToCloudinaryWithRetry (fun _ => .error "boom") "fileA").2
      = .error "Failed to upload after 3 attempts: boom" :=
  ⟨rfl, rfl⟩

/-- C5 (amended): for every file upload, at most 3 attempts are made, a fixed
2000ms sleep separates consecutive attempts and none follows the final one, a
success on any attempt returns that attempt's URL with no error, and if all 3
attempts fail the call signals a permanent failure carrying the attempt cap
and the last attempt's error message (but not the filename): the retry loop
is extensionally the policy `retryPolicySpec`. -/
theorem uploadRetry_policy (res : Nat → Except String String) (name : String) :
    uploadToCloudinaryWithRetry res name = retryPolicySpec res := by
  show retryFrom res 1 none 3 = retryPolicySpec res
  unfold retryPolicySpec
  rcases h1 : res 1 with e1 | u1 <;>
    rcases h2 : res 2 with e2 | u2 <;>
      rcases h3 : res 3 with e3 | u3 <;>
        simp [retryFrom, h1, h2, h3, MAX_UPLOAD_RETRIES, RETRY_DELAY_MS,
          exhaustMessage, Option.getD, show (3 : Nat) = 2 + 1 from rfl,
          show (2 : Nat) = 1 + 1 from rfl] <;> rfl

/-- C6: on every exit path of a run — whichever pipeline step fails, or none —
the `finally` block runs the workspace cleanup before the run concludes, so
(provided the `rm` operation itself does not throw) the temporary workspace
directory is gone when `backup` returns. -/
theorem workspace_always_removed (env : PipelineEnv)
    (h : env.rmThrows = false) :
    (backupRun env).2 = false := by
  unfold backupRun cleanupTempDir rmOutcome
  rw [h]
  cases env.mkdirRes <;> simp

/-- Witness for `workspace_always_removed`: a run whose dump step fails still
ends with the workspace removed. -/
theorem workspace_always_removed_witness :
    (backupRun ⟨.ok (), .error "dump failed", .ok (), .ok 5, .ok (), .ok (),
      .ok (), .ok (), false⟩).2 = false :=
  workspace_always_removed _ rfl

/-- C10: `cleanupTempDir` never fails — it swallows every removal error and
succeeds even when the directory does not exist — and therefore the result
`backup` returns is always the pipeline's own result: a cleanup error never
replaces the pipeline's error, and a successful pipeline is never turned into
a failure by cleanup. -/
theorem cleanup_never_fails (env : PipelineEnv) (dirExists rmThrows : Bool) :
    (cleanupTempDir dirExists rmThrows).2 = .ok () ∧
    (backupRun env).1 = runPipelineSteps env := by
  constructor
  · unfold cleanupTempDir rmOutcome
    cases rmThrows <;> simp
  · unfold backupRun cleanupTempDir rmOutcome
    cases hrm : env.rmThrows <;> simp
